import Mathlib

/-!
Verification of `protein_analysis.py` (`protein_correlation_clustering_go_count`).

The Python source is shallowly embedded: the per-protein GO cross-reference
extraction (lines 52-58, 78), the cluster-count selection loop (lines 60-72),
the correlation computation (line 62), and the per-cluster GO-set aggregation
(lines 74-84, 109-124) become Lean definitions over `List`/`Finset`, with the
external library subroutines (SwissProt record fetch, sklearn clustering,
Davies-Bouldin scoring) as explicit function parameters.  Numeric cell values
are rationals; correlation values live in `ℝ` because Pearson/Spearman/Kendall
normalise by a square root.
-/

namespace ProteinAnalysis

/-! ## Annotation records (source lines 52-58, 78)

A SwissProt GO cross-reference is a 4-tuple
`("GO", "GO:0008150", description, source)`; see the comment at line 79 of the
source: `go[0]->"GO", [1]->"GO:0008150" [2]->description [3]->source`. -/

structure Xref where
  db : String
  goId : String
  desc : String
  source : String
deriving DecidableEq, Repr

/-- Python `"GO" in x_ref` (line 58): membership of the string `"GO"` among the
tuple's components. -/
def go_tagged (r : Xref) : Bool :=
  r.db == "GO" || r.goId == "GO" || r.desc == "GO" || r.source == "GO"

/-- Line 58: `record_protein_gos[protein] = set([x_ref for x_ref in x_refs if "GO" in x_ref])`. -/
def record_protein_gos (x_refs : List Xref) : Finset Xref :=
  (x_refs.filter go_tagged).toFinset

/-- Line 78: `protein_gos = {protein: {go[2] for go in record_protein_gos[protein]} ...}` —
the set of third components (descriptions) of the protein's GO cross-references. -/
def protein_gos (x_refs : List Xref) : Finset String :=
  (record_protein_gos x_refs).image Xref.desc

/-! ## Cluster-count selection (source lines 60-72) -/

/-- `np.linspace(start, stop, num)` for `num ≥ 2`: evenly spaced samples
including both endpoints. -/
def linspace (start stop : ℚ) (num : ℕ) : List ℚ :=
  (List.range num).map (fun i => start + i * ((stop - start) / ((num : ℚ) - 1)))

/-- `.astype(int)`: C-style truncation toward zero. -/
def trunc (q : ℚ) : ℤ :=
  if 0 ≤ q then ⌊q⌋ else -⌊-q⌋

/-- Line 61: `max_n_clusters = 6`. -/
def max_n_clusters : ℕ := 6

/-- Line 63: `np.linspace(2, max_n_clusters, max_n_clusters-1).astype(int)`. -/
def tentative_clusters : List ℤ :=
  (linspace 2 (max_n_clusters : ℚ) (max_n_clusters - 1)).map trunc

/-- Scanning worker for `np.argmin`: keeps the first strict minimum. -/
def argminAux : List ℚ → ℕ → ℚ → ℕ → ℕ
  | [], _, _, bi => bi
  | x :: xs, i, bv, bi =>
    if x < bv then argminAux xs (i + 1) x i else argminAux xs (i + 1) bv bi

/-- `np.argmin`: index of the first occurrence of the minimum. -/
def argmin : List ℚ → ℕ
  | [] => 0
  | x :: xs => argminAux xs 1 x 0

/-- Lines 64-70: the loop computes `scores = [dbscore(k) for k in tentative_clusters]`
and `best_n_clusters = tentative_clusters[np.array(scores).argmin()]`.  The
Davies-Bouldin score of the clustering at each candidate count is abstracted as
the function `score`. -/
def best_n_clusters (score : ℤ → ℚ) : ℤ :=
  tentative_clusters.getD (argmin (tentative_clusters.map score)) 0

/-! ## Correlation matrix (source line 62)

`protein_df.corr(method=...)` computes, for every ordered pair of columns,
the chosen coefficient of the two measurement vectors: Pearson's r, the
Spearman coefficient (Pearson on average-ranked data), or Kendall's tau-b.
Measurement vectors are rational; the coefficients live in `ℝ` because all
three normalise by a square root. -/

inductive CorrMethod
  | pearson
  | kendall
  | spearman
deriving DecidableEq, Repr

def mean (l : List ℚ) : ℚ :=
  l.sum / l.length

/-- Centered cross-product sum `Σᵢ (xᵢ - x̄)(yᵢ - ȳ)`: both Pearson's
numerator and, at `y = x`, the scatter that its denominator squares. -/
def cov_sum (x y : List ℚ) : ℚ :=
  ((x.zip y).map (fun p => (p.1 - mean x) * (p.2 - mean y))).sum

noncomputable def pearson (x y : List ℚ) : ℝ :=
  (cov_sum x y : ℝ) / Real.sqrt ((cov_sum x x : ℝ) * (cov_sum y y : ℝ))

/-- Average ranks (1-based, ties get their mean rank), as used for the
Spearman coefficient. -/
def rankdata (l : List ℚ) : List ℚ :=
  l.map (fun x =>
    (l.countP (fun y => decide (y < x)) : ℚ) +
      ((l.countP (fun y => decide (y = x)) : ℚ) + 1) / 2)

noncomputable def spearman (x y : List ℚ) : ℝ :=
  pearson (rankdata x) (rankdata y)

def sgnQ (q : ℚ) : ℤ :=
  if q < 0 then -1 else if q = 0 then 0 else 1

/-- Kendall pair statistic `Σ_{i<j} sgn(xᵢ-xⱼ)·sgn(yᵢ-yⱼ)` over the paired
list; at `y = x` it counts the non-tied pairs `n₀ - tₓ`. -/
def kendall_S : List (ℚ × ℚ) → ℤ
  | [] => 0
  | p :: rest =>
    (rest.map (fun q => sgnQ (p.1 - q.1) * sgnQ (p.2 - q.2))).sum +
      kendall_S rest

/-- Kendall's tau-b: `S / sqrt((n₀ - tₓ)(n₀ - t_y))`. -/
noncomputable def kendall_tau (x y : List ℚ) : ℝ :=
  (kendall_S (x.zip y) : ℝ) /
    Real.sqrt ((kendall_S (x.zip x) : ℝ) * (kendall_S (y.zip y) : ℝ))

noncomputable def corr_fn : CorrMethod → List ℚ → List ℚ → ℝ
  | .pearson => pearson
  | .kendall => kendall_tau
  | .spearman => spearman

/-- Line 62: the full protein-by-protein correlation matrix. -/
noncomputable def correlations (m : CorrMethod) (cols : List (List ℚ)) :
    List (List ℝ) :=
  cols.map (fun x => cols.map (fun y => corr_fn m x y))

noncomputable def corr_entry (m : CorrMethod) (cols : List (List ℚ))
    (i j : ℕ) : ℝ :=
  ((correlations m cols).getD i []).getD j 0

/-- The column is non-degenerate for the method: the scatter term the method
divides by is nonzero (for a constant column it is zero and the library
produces NaN instead of 1.0). -/
def nondegenerate : CorrMethod → List ℚ → Prop
  | .pearson, x => cov_sum x x ≠ 0
  | .spearman, x => cov_sum (rankdata x) (rankdata x) ≠ 0
  | .kendall, x => kendall_S (x.zip x) ≠ 0

/-! ## Per-cluster GO-set aggregation (source lines 74-124)

`proteins` is the list of column names, `labels` the array `ac.labels_`
(aligned with `proteins`), and `gos` the dictionary `protein_gos`. -/

/-- Line 76: `np.unique(ac.labels_)` — sorted deduplicated labels. -/
def np_unique (labels : List ℕ) : List ℕ :=
  labels.dedup.insertionSort (· ≤ ·)

/-- Line 82: `proteins[ac.labels_ == cluster]` — the member proteins of a
cluster, in column order. -/
def cluster_proteins (proteins : List String) (labels : List ℕ) (c : ℕ) :
    List String :=
  ((proteins.zip labels).filter (fun pl => pl.2 == c)).map Prod.fst

/-- Lines 80-84: `cluster_gos[cluster]` starts empty and unions in
`protein_gos[protein]` for each member protein. -/
def cluster_gos (gos : String → Finset String) (proteins : List String)
    (labels : List ℕ) (c : ℕ) : Finset String :=
  (cluster_proteins proteins labels c).foldl (fun s p => s ∪ gos p) ∅

/-- Lines 109-117: `cluster_specific_gos[cluster]` is built by unioning the
member proteins' GO sets, then, for every other cluster, subtracting each of
its member proteins' GO sets in turn. -/
def cluster_specific_gos (gos : String → Finset String)
    (proteins : List String) (labels : List ℕ) (c : ℕ) : Finset String :=
  (np_unique labels).foldl
    (fun s c2 =>
      if c ≠ c2 then
        (cluster_proteins proteins labels c2).foldl (fun t p => t \ gos p) s
      else s)
    ((cluster_proteins proteins labels c).foldl (fun s p => s ∪ gos p) ∅)

/-- Lines 120-124: `cluster_specific_protein_gos[cluster][protein]` is the
intersection of the cluster's exclusive set with the protein's own GO set. -/
def cluster_specific_protein_gos (gos : String → Finset String)
    (proteins : List String) (labels : List ℕ) (c : ℕ) (p : String) :
    Finset String :=
  (cluster_specific_gos gos proteins labels c) ∩ gos p

/-- Spec wording of the Annotation Aggregator contract: the exclusive set is
the strict set difference of the cluster's union against the union of all
other clusters' unions. -/
def cluster_specific_gos_spec (gos : String → Finset String)
    (proteins : List String) (labels : List ℕ) (c : ℕ) : Finset String :=
  cluster_gos gos proteins labels c \
    (((np_unique labels).filter (fun c2 => c2 ≠ c)).foldl
      (fun s c2 => s ∪ cluster_gos gos proteins labels c2) ∅)

/-! ## The full computational pipeline (source lines 52-124)

Everything the function computes on the way from its inputs to the cluster
assignment and the cluster-exclusive sets, with the external subroutines as
parameters: `records p` is the remote SwissProt cross-reference list for
accession `p`; `cluster_fn n corr` stands for
`AgglomerativeClustering(n_clusters=n).fit(corr).labels_`; and
`score_fn corr labels` stands for `davies_bouldin_score(corr, labels)`. -/
noncomputable def pipeline (m : CorrMethod) (cols : List (List ℚ))
    (proteins : List String) (records : String → List Xref)
    (cluster_fn : ℤ → List (List ℝ) → List ℕ)
    (score_fn : List (List ℝ) → List ℕ → ℚ) :
    List ℕ × List (ℕ × Finset String) :=
  let corr := correlations m cols
  let scores := tentative_clusters.map (fun n => score_fn corr (cluster_fn n corr))
  let k := tentative_clusters.getD (argmin scores) 0
  let labels := cluster_fn k corr
  let gos := fun p => protein_gos (records p)
  (labels,
    (np_unique labels).map
      (fun c => (c, cluster_specific_gos gos proteins labels c)))

/-! ## Helper lemmas -/

theorem tentative_clusters_eq : tentative_clusters = [2, 3, 4, 5, 6] := by
  simp only [tentative_clusters, linspace, max_n_clusters]
  norm_num [List.range_succ, trunc]

lemma mem_np_unique (labels : List ℕ) (c : ℕ) :
    c ∈ np_unique labels ↔ c ∈ labels := by
  unfold np_unique
  rw [(List.perm_insertionSort _ _).mem_iff, List.mem_dedup]

lemma mem_foldl_union {α β : Type} [DecidableEq β] (f : α → Finset β)
    (l : List α) (s0 : Finset β) (x : β) :
    x ∈ l.foldl (fun s a => s ∪ f a) s0 ↔ x ∈ s0 ∨ ∃ a ∈ l, x ∈ f a := by
  induction l generalizing s0 with
  | nil => simp
  | cons a tl ih =>
    simp only [List.foldl_cons, ih, Finset.mem_union, List.mem_cons]
    constructor
    · rintro ((h | h) | ⟨b, hb, hx⟩)
      · exact Or.inl h
      · exact Or.inr ⟨a, Or.inl rfl, h⟩
      · exact Or.inr ⟨b, Or.inr hb, hx⟩
    · rintro (h | ⟨b, (rfl | hb), hx⟩)
      · exact Or.inl (Or.inl h)
      · exact Or.inl (Or.inr hx)
      · exact Or.inr ⟨b, hb, hx⟩

lemma mem_foldl_sdiff {α β : Type} [DecidableEq β] (f : α → Finset β)
    (l : List α) (s0 : Finset β) (x : β) :
    x ∈ l.foldl (fun s a => s \ f a) s0 ↔ x ∈ s0 ∧ ∀ a ∈ l, x ∉ f a := by
  induction l generalizing s0 with
  | nil => simp
  | cons a tl ih =>
    simp only [List.foldl_cons, ih, Finset.mem_sdiff, List.mem_cons]
    constructor
    · rintro ⟨⟨h0, ha⟩, htl⟩
      refine ⟨h0, ?_⟩
      rintro b (rfl | hb)
      · exact ha
      · exact htl b hb
    · rintro ⟨h0, h⟩
      exact ⟨⟨h0, h a (Or.inl rfl)⟩, fun b hb => h b (Or.inr hb)⟩

lemma mem_foldl_cond_sdiff (gos : String → Finset String)
    (members : ℕ → List String) (c : ℕ) (cl : List ℕ) (s0 : Finset String)
    (x : String) :
    x ∈ cl.foldl
        (fun s c2 =>
          if c ≠ c2 then (members c2).foldl (fun t p => t \ gos p) s else s)
        s0 ↔
      x ∈ s0 ∧ ∀ c2 ∈ cl, c ≠ c2 → ∀ p ∈ members c2, x ∉ gos p := by
  induction cl generalizing s0 with
  | nil => simp
  | cons c2 tl ih =>
    by_cases hc : c ≠ c2
    · simp only [List.foldl_cons, if_pos hc, ih, mem_foldl_sdiff,
        List.mem_cons]
      constructor
      · rintro ⟨⟨h0, hmem⟩, htl⟩
        refine ⟨h0, ?_⟩
        rintro c3 (rfl | h3) hne
        · exact hmem
        · exact htl c3 h3 hne
      · rintro ⟨h0, h⟩
        exact ⟨⟨h0, h c2 (Or.inl rfl) hc⟩, fun c3 h3 => h c3 (Or.inr h3)⟩
    · simp only [List.foldl_cons, if_neg hc, ih, List.mem_cons]
      push_neg at hc
      constructor
      · rintro ⟨h0, htl⟩
        refine ⟨h0, ?_⟩
        rintro c3 (rfl | h3) hne
        · exact absurd hc hne
        · exact htl c3 h3 hne
      · rintro ⟨h0, h⟩
        exact ⟨h0, fun c3 h3 => h c3 (Or.inr h3)⟩

lemma mem_cluster_gos (gos : String → Finset String) (proteins : List String)
    (labels : List ℕ) (c : ℕ) (x : String) :
    x ∈ cluster_gos gos proteins labels c ↔
      ∃ p ∈ cluster_proteins proteins labels c, x ∈ gos p := by
  simp [cluster_gos, mem_foldl_union]

lemma mem_cluster_specific_gos (gos : String → Finset String)
    (proteins : List String) (labels : List ℕ) (c : ℕ) (x : String) :
    x ∈ cluster_specific_gos gos proteins labels c ↔
      (∃ p ∈ cluster_proteins proteins labels c, x ∈ gos p) ∧
        ∀ c2 ∈ np_unique labels, c ≠ c2 →
          ∀ p ∈ cluster_proteins proteins labels c2, x ∉ gos p := by
  unfold cluster_specific_gos
  rw [mem_foldl_cond_sdiff gos (cluster_proteins proteins labels)]
  simp [mem_foldl_union]

/-! ### Symmetry and diagonal lemmas for the correlation coefficients -/

lemma zip_self {α : Type} (l : List α) : l.zip l = l.map (fun a => (a, a)) := by
  induction l with
  | nil => rfl
  | cons a tl ih => simp [List.zip_cons_cons, ih]

lemma cov_sum_comm (x y : List ℚ) : cov_sum x y = cov_sum y x := by
  unfold cov_sum
  rw [← List.zip_swap x y, List.map_map]
  congr 1
  apply List.map_congr_left
  intro p _
  simp only [Function.comp_apply, Prod.fst_swap, Prod.snd_swap]
  ring

lemma cov_sum_self_nonneg (x : List ℚ) : 0 ≤ cov_sum x x := by
  unfold cov_sum
  apply List.sum_nonneg
  intro q hq
  rw [zip_self, List.map_map] at hq
  obtain ⟨a, _, rfl⟩ := List.mem_map.mp hq
  exact mul_self_nonneg _

lemma kendall_S_map_swap (l : List (ℚ × ℚ)) :
    kendall_S (l.map Prod.swap) = kendall_S l := by
  induction l with
  | nil => rfl
  | cons p tl ih =>
    simp only [List.map_cons, kendall_S, ih, List.map_map]
    congr 1
    congr 1
    apply List.map_congr_left
    intro q _
    simp only [Function.comp_apply, Prod.fst_swap, Prod.snd_swap]
    ring

lemma kendall_S_comm (x y : List ℚ) :
    kendall_S (x.zip y) = kendall_S (y.zip x) := by
  rw [← List.zip_swap x y, kendall_S_map_swap]

lemma kendall_S_nonneg_of_diag (l : List (ℚ × ℚ)) (h : ∀ p ∈ l, p.1 = p.2) :
    0 ≤ kendall_S l := by
  induction l with
  | nil => simp [kendall_S]
  | cons p tl ih =>
    have hp : p.1 = p.2 := h p (List.mem_cons_self _ _)
    have hsum : 0 ≤ (tl.map
        (fun q => sgnQ (p.1 - q.1) * sgnQ (p.2 - q.2))).sum := by
      apply List.sum_nonneg
      intro z hz
      obtain ⟨q, hq, rfl⟩ := List.mem_map.mp hz
      have hq2 : q.1 = q.2 := h q (List.mem_cons_of_mem _ hq)
      rw [← hp, ← hq2]
      exact mul_self_nonneg _
    have htl : 0 ≤ kendall_S tl :=
      ih (fun q hq => h q (List.mem_cons_of_mem _ hq))
    simp only [kendall_S]
    omega

lemma kendall_S_self_nonneg (x : List ℚ) : 0 ≤ kendall_S (x.zip x) := by
  apply kendall_S_nonneg_of_diag
  intro p hp
  rw [zip_self] at hp
  obtain ⟨a, _, rfl⟩ := List.mem_map.mp hp
  rfl

lemma div_sqrt_mul_self {c : ℝ} (h0 : 0 ≤ c) (hne : c ≠ 0) :
    c / Real.sqrt (c * c) = 1 := by
  rw [Real.sqrt_mul_self h0]
  exact div_self hne

lemma corr_fn_comm (m : CorrMethod) (x y : List ℚ) :
    corr_fn m x y = corr_fn m y x := by
  cases m with
  | pearson =>
    simp only [corr_fn, pearson, cov_sum_comm x y, mul_comm]
  | kendall =>
    simp only [corr_fn, kendall_tau, kendall_S_comm x y, mul_comm]
  | spearman =>
    simp only [corr_fn, spearman, pearson,
      cov_sum_comm (rankdata x) (rankdata y), mul_comm]

lemma corr_fn_self (m : CorrMethod) (x : List ℚ) (h : nondegenerate m x) :
    corr_fn m x x = 1 := by
  cases m with
  | pearson =>
    have h0 : (0 : ℝ) ≤ (cov_sum x x : ℝ) := by
      exact_mod_cast cov_sum_self_nonneg x
    have hne : (cov_sum x x : ℝ) ≠ 0 := by
      exact_mod_cast h
    simpa only [corr_fn, pearson] using div_sqrt_mul_self h0 hne
  | kendall =>
    have h0 : (0 : ℝ) ≤ (kendall_S (x.zip x) : ℝ) := by
      exact_mod_cast kendall_S_self_nonneg x
    have hne : (kendall_S (x.zip x) : ℝ) ≠ 0 := by
      exact_mod_cast h
    simpa only [corr_fn, kendall_tau] using div_sqrt_mul_self h0 hne
  | spearman =>
    have h0 : (0 : ℝ) ≤ (cov_sum (rankdata x) (rankdata x) : ℝ) := by
      exact_mod_cast cov_sum_self_nonneg (rankdata x)
    have hne : (cov_sum (rankdata x) (rankdata x) : ℝ) ≠ 0 := by
      exact_mod_cast h
    simpa only [corr_fn, spearman, pearson] using div_sqrt_mul_self h0 hne

lemma corr_entry_eq (m : CorrMethod) (cols : List (List ℚ)) (i j : ℕ)
    (hi : i < cols.length) (hj : j < cols.length) :
    corr_entry m cols i j = corr_fn m (cols.getD i []) (cols.getD j []) := by
  unfold corr_entry correlations
  simp only [List.getD_eq_getElem?_getD, List.getElem?_map,
    List.getElem?_eq_getElem hi, List.getElem?_eq_getElem hj,
    Option.map_some', Option.getD_some]

lemma mem_protein_gos (x_refs : List Xref) (t : String) :
    t ∈ protein_gos x_refs ↔
      ∃ r ∈ x_refs, go_tagged r = true ∧ r.desc = t := by
  simp only [protein_gos, record_protein_gos, Finset.mem_image,
    List.mem_toFinset, List.mem_filter]
  constructor
  · rintro ⟨r, ⟨hr, hg⟩, rfl⟩
    exact ⟨r, hr, hg, rfl⟩
  · rintro ⟨r, hr, hg, rfl⟩
    exact ⟨r, ⟨hr, hg⟩, rfl⟩

/-! ## Claims -/

/-- C2: for every clustering and every pair of distinct cluster labels, the
two clusters' cluster-exclusive GO sets are disjoint: no GO term description
belongs to both clusters' exclusive sets. -/
theorem claim_C2_exclusive_sets_disjoint (gos : String → Finset String)
    (proteins : List String) (labels : List ℕ) (c c' : ℕ) (t : String)
    (_hc : c ∈ labels) (hc' : c' ∈ labels) (hne : c ≠ c') :
    ¬(t ∈ cluster_specific_gos gos proteins labels c ∧
      t ∈ cluster_specific_gos gos proteins labels c') := by
  rintro ⟨h1, h2⟩
  rw [mem_cluster_specific_gos] at h1 h2
  obtain ⟨⟨p, hp, hpt⟩, _⟩ := h2
  exact h1.2 c' ((mem_np_unique labels c').mpr hc') hne p hp hpt

theorem claim_C2_exclusive_sets_disjoint_witness :
    (0 ∈ [0, 1]) ∧ (1 ∈ [0, 1]) ∧ (0 : ℕ) ≠ 1 ∧
      ¬(("g" ∈ cluster_specific_gos (fun _ => {"g"}) ["P", "Q"] [0, 1] 0) ∧
        ("g" ∈ cluster_specific_gos (fun _ => {"g"}) ["P", "Q"] [0, 1] 1)) :=
  ⟨by decide, by decide, by decide,
    claim_C2_exclusive_sets_disjoint (fun _ => {"g"}) ["P", "Q"] [0, 1] 0 1
      "g" (by decide) (by decide) (by decide)⟩

/-- C3: for every cluster, the iteratively computed cluster-exclusive set
equals the strict set difference of the cluster's union against the union of
all other clusters' unions; consequently a term present in two distinct
clusters' unions appears in no cluster's exclusive set. -/
theorem claim_C3_exclusive_refines_sdiff (gos : String → Finset String)
    (proteins : List String) (labels : List ℕ) :
    (∀ c, cluster_specific_gos gos proteins labels c =
        cluster_specific_gos_spec gos proteins labels c) ∧
      ∀ c1 c2 t, c1 ∈ labels → c2 ∈ labels → c1 ≠ c2 →
        t ∈ cluster_gos gos proteins labels c1 →
        t ∈ cluster_gos gos proteins labels c2 →
        ∀ c, t ∉ cluster_specific_gos gos proteins labels c := by
  constructor
  · intro c
    ext x
    rw [mem_cluster_specific_gos]
    unfold cluster_specific_gos_spec
    simp only [Finset.mem_sdiff, mem_foldl_union, mem_cluster_gos,
      List.mem_filter, decide_eq_true_eq, Finset.not_mem_empty, false_or,
      not_exists, not_and]
    constructor
    · rintro ⟨hbase, hexcl⟩
      refine ⟨hbase, ?_⟩
      rintro c2' ⟨hc2', hne'⟩ p hp
      exact hexcl c2' hc2' (Ne.symm hne') p hp
    · rintro ⟨hbase, hexcl⟩
      refine ⟨hbase, ?_⟩
      intro c2' hc2' hne' p hp
      exact hexcl c2' ⟨hc2', Ne.symm hne'⟩ p hp
  · intro c1 c2 t h1 h2 hne ht1 ht2 c
    rw [mem_cluster_specific_gos]
    rintro ⟨_, hexcl⟩
    by_cases hcc : c = c1
    · obtain ⟨p, hp, hpt⟩ := (mem_cluster_gos gos proteins labels c2 t).mp ht2
      exact hexcl c2 ((mem_np_unique labels c2).mpr h2) (hcc ▸ hne) p hp hpt
    · obtain ⟨p, hp, hpt⟩ := (mem_cluster_gos gos proteins labels c1 t).mp ht1
      exact hexcl c1 ((mem_np_unique labels c1).mpr h1) hcc p hp hpt

theorem claim_C3_exclusive_refines_sdiff_witness :
    (cluster_specific_gos (fun _ => {"s"}) ["P", "Q"] [0, 1] 0 =
        cluster_specific_gos_spec (fun _ => {"s"}) ["P", "Q"] [0, 1] 0) ∧
      "s" ∉ cluster_specific_gos (fun _ => {"s"}) ["P", "Q"] [0, 1] 0 :=
  ⟨(claim_C3_exclusive_refines_sdiff (fun _ => {"s"}) ["P", "Q"] [0, 1]).1 0,
    (claim_C3_exclusive_refines_sdiff (fun _ => {"s"}) ["P", "Q"] [0, 1]).2
      0 1 "s" (by decide) (by decide) (by decide) (by decide) (by decide) 0⟩

/-- C5: a protein's per-protein exclusivity set (its own GO set intersected
with its cluster's exclusive set) is never larger than the cluster's
exclusive-term set. -/
theorem claim_C5_protein_exclusive_count_le (gos : String → Finset String)
    (proteins : List String) (labels : List ℕ) (c : ℕ) (p : String) :
    (cluster_specific_protein_gos gos proteins labels c p).card ≤
      (cluster_specific_gos gos proteins labels c).card := by
  apply Finset.card_le_card
  unfold cluster_specific_protein_gos
  exact Finset.inter_subset_left

/-- C6: a protein with an empty GO-term set contributes nothing to its
cluster's union — the union is the same set computed without that protein —
and its per-protein exclusivity count is 0, whatever cluster it is in. -/
theorem claim_C6_empty_go_protein (gos : String → Finset String)
    (proteins : List String) (labels : List ℕ) (p : String) (c : ℕ)
    (h : gos p = ∅) :
    cluster_gos gos proteins labels c =
        ((cluster_proteins proteins labels c).filter
          (fun q => q ≠ p)).foldl (fun s q => s ∪ gos q) ∅ ∧
      (cluster_specific_protein_gos gos proteins labels c p).card = 0 := by
  constructor
  · ext x
    rw [mem_cluster_gos, mem_foldl_union]
    simp only [List.mem_filter, decide_eq_true_eq, Finset.not_mem_empty,
      false_or]
    constructor
    · rintro ⟨q, hq, hx⟩
      refine ⟨q, ⟨hq, ?_⟩, hx⟩
      rintro rfl
      rw [h] at hx
      exact absurd hx (Finset.not_mem_empty x)
    · rintro ⟨q, ⟨hq, _⟩, hx⟩
      exact ⟨q, hq, hx⟩
  · rw [Finset.card_eq_zero]
    unfold cluster_specific_protein_gos
    rw [h]
    exact Finset.inter_empty _

theorem claim_C6_empty_go_protein_witness :
    ((fun _ : String => (∅ : Finset String)) "P" = ∅) ∧
      (cluster_gos (fun _ => ∅) ["P", "Q"] [0, 0] 0 =
          ((cluster_proteins ["P", "Q"] [0, 0] 0).filter
            (fun q => q ≠ "P")).foldl (fun s q => s ∪ (fun _ => ∅) q) ∅ ∧
        (cluster_specific_protein_gos (fun _ => ∅) ["P", "Q"] [0, 0] 0
            "P").card = 0) :=
  ⟨rfl, claim_C6_empty_go_protein (fun _ => ∅) ["P", "Q"] [0, 0] "P" 0 rfl⟩

/-- C9: every cluster's exclusive set is contained in that cluster's GO-term
union, it equals the union over the cluster's member proteins of their
per-protein exclusive sets, and any exclusive term is carried by at least one
member protein. -/
theorem claim_C9_exclusive_subset_union (gos : String → Finset String)
    (proteins : List String) (labels : List ℕ) (c : ℕ) :
    cluster_specific_gos gos proteins labels c ⊆
        cluster_gos gos proteins labels c ∧
      cluster_specific_gos gos proteins labels c =
        (cluster_proteins proteins labels c).foldl
          (fun s p => s ∪ cluster_specific_protein_gos gos proteins labels c p)
          ∅ ∧
      ∀ t ∈ cluster_specific_gos gos proteins labels c,
        ∃ p ∈ cluster_proteins proteins labels c, t ∈ gos p := by
  refine ⟨?_, ?_, ?_⟩
  · intro x hx
    rw [mem_cluster_specific_gos] at hx
    rw [mem_cluster_gos]
    exact hx.1
  · ext x
    rw [mem_foldl_union]
    simp only [cluster_specific_protein_gos, Finset.mem_inter,
      Finset.not_mem_empty, false_or]
    constructor
    · intro hx
      obtain ⟨⟨p, hp, hgp⟩, _⟩ := (mem_cluster_specific_gos gos proteins
        labels c x).mp hx
      exact ⟨p, hp, hx, hgp⟩
    · rintro ⟨p, _, hx, _⟩
      exact hx
  · intro t ht
    exact ((mem_cluster_specific_gos gos proteins labels c t).mp ht).1

theorem claim_C9_exclusive_subset_union_witness :
    ("a" ∈ cluster_specific_gos (fun _ => {"a"}) ["P"] [0] 0) ∧
      ∃ p ∈ cluster_proteins ["P"] [0] 0,
        "a" ∈ (fun _ : String => ({"a"} : Finset String)) p :=
  ⟨by decide,
    (claim_C9_exclusive_subset_union (fun _ => {"a"}) ["P"] [0] 0).2.2 "a"
      (by decide)⟩

/-- C7: every GO term reaching a cluster's union is exactly a description
(third tuple component) of some GO-tagged cross-reference of some member
protein: only the description field survives into the downstream sets. -/
theorem claim_C7_only_description_retained (records : String → List Xref)
    (proteins : List String) (labels : List ℕ) (c : ℕ) (t : String) :
    t ∈ cluster_gos (fun p => protein_gos (records p)) proteins labels c ↔
      ∃ p ∈ cluster_proteins proteins labels c,
        ∃ r ∈ records p, go_tagged r = true ∧ r.desc = t := by
  rw [mem_cluster_gos]
  simp only [mem_protein_gos]

/-- C10: two distinct GO cross-reference records sharing a description
collapse to a single downstream element, so the protein's GO set is strictly
smaller than its set of GO-tagged records. -/
theorem claim_C10_descriptions_collapse (x_refs : List Xref) (r1 r2 : Xref)
    (h1 : r1 ∈ x_refs) (h2 : r2 ∈ x_refs) (hne : r1 ≠ r2)
    (hg1 : go_tagged r1 = true) (hg2 : go_tagged r2 = true)
    (hd : r1.desc = r2.desc) :
    (protein_gos x_refs).card < (record_protein_gos x_refs).card := by
  have hr1 : r1 ∈ record_protein_gos x_refs := by
    unfold record_protein_gos
    rw [List.mem_toFinset, List.mem_filter]
    exact ⟨h1, hg1⟩
  have hr2 : r2 ∈ record_protein_gos x_refs := by
    unfold record_protein_gos
    rw [List.mem_toFinset, List.mem_filter]
    exact ⟨h2, hg2⟩
  have himg : protein_gos x_refs =
      ((record_protein_gos x_refs).erase r1).image Xref.desc := by
    unfold protein_gos
    apply Finset.Subset.antisymm
    · intro t ht
      obtain ⟨r, hr, rfl⟩ := Finset.mem_image.mp ht
      by_cases hrr : r = r1
      · subst hrr
        exact Finset.mem_image.mpr
          ⟨r2, Finset.mem_erase.mpr ⟨Ne.symm hne, hr2⟩, hd.symm⟩
      · exact Finset.mem_image.mpr ⟨r, Finset.mem_erase.mpr ⟨hrr, hr⟩, rfl⟩
    · exact Finset.image_subset_image (Finset.erase_subset _ _)
  calc (protein_gos x_refs).card
      = (((record_protein_gos x_refs).erase r1).image Xref.desc).card := by
        rw [himg]
    _ ≤ ((record_protein_gos x_refs).erase r1).card := Finset.card_image_le
    _ = (record_protein_gos x_refs).card - 1 :=
        Finset.card_erase_of_mem hr1
    _ < (record_protein_gos x_refs).card :=
        Nat.sub_lt (Finset.card_pos.mpr ⟨r1, hr1⟩) one_pos

theorem claim_C10_descriptions_collapse_witness :
    ((⟨"GO", "GO:0000001", "d", "e1"⟩ : Xref) ∈
        [(⟨"GO", "GO:0000001", "d", "e1"⟩ : Xref),
          ⟨"GO", "GO:0000002", "d", "e2"⟩]) ∧
      ((⟨"GO", "GO:0000002", "d", "e2"⟩ : Xref) ∈
        [(⟨"GO", "GO:0000001", "d", "e1"⟩ : Xref),
          ⟨"GO", "GO:0000002", "d", "e2"⟩]) ∧
      (⟨"GO", "GO:0000001", "d", "e1"⟩ : Xref) ≠
        ⟨"GO", "GO:0000002", "d", "e2"⟩ ∧
      (protein_gos [(⟨"GO", "GO:0000001", "d", "e1"⟩ : Xref),
          ⟨"GO", "GO:0000002", "d", "e2"⟩]).card <
        (record_protein_gos [(⟨"GO", "GO:0000001", "d", "e1"⟩ : Xref),
          ⟨"GO", "GO:0000002", "d", "e2"⟩]).card :=
  ⟨by decide, by decide, by decide,
    claim_C10_descriptions_collapse
      [⟨"GO", "GO:0000001", "d", "e1"⟩, ⟨"GO", "GO:0000002", "d", "e2"⟩]
      ⟨"GO", "GO:0000001", "d", "e1"⟩ ⟨"GO", "GO:0000002", "d", "e2"⟩
      (by decide) (by decide) (by decide) (by decide) (by decide)
      (by decide)⟩

/-- C4 (counterexample to the claim as stated): for a constant measurement
column the scatter is zero, the coefficient's denominator vanishes, and the
diagonal entry is not 1 (the library produces NaN there; the exact model
yields 0). -/
theorem claim_C4_constant_column_counterexample :
    corr_entry .pearson [[(1 : ℚ), 1]] 0 0 ≠ 1 := by
  have hcov : cov_sum [(1 : ℚ), 1] [(1 : ℚ), 1] = 0 := by
    norm_num [cov_sum, mean]
  rw [corr_entry_eq .pearson [[(1 : ℚ), 1]] 0 0 (by norm_num) (by norm_num)]
  show corr_fn .pearson [(1 : ℚ), 1] [(1 : ℚ), 1] ≠ 1
  simp only [corr_fn, pearson, hcov, Rat.cast_zero, zero_div]
  exact zero_ne_one

/-- C4 (amended): for every valid correlation method, the correlation matrix
over the protein columns is symmetric; every diagonal entry whose column is
non-degenerate for the method (nonzero scatter, i.e. a non-constant column)
equals 1. -/
theorem claim_C4_corr_symmetric_unit_diagonal (m : CorrMethod)
    (cols : List (List ℚ)) (i j : ℕ) (hi : i < cols.length)
    (hj : j < cols.length) :
    corr_entry m cols i j = corr_entry m cols j i ∧
      (nondegenerate m (cols.getD i []) → corr_entry m cols i i = 1) := by
  constructor
  · rw [corr_entry_eq m cols i j hi hj, corr_entry_eq m cols j i hj hi,
      corr_fn_comm]
  · intro hnd
    rw [corr_entry_eq m cols i i hi hi, corr_fn_self m _ hnd]

theorem claim_C4_corr_symmetric_unit_diagonal_witness :
    (corr_entry .pearson [[(0 : ℚ), 2], [1, 3]] 0 1 =
        corr_entry .pearson [[(0 : ℚ), 2], [1, 3]] 1 0) ∧
      corr_entry .pearson [[(0 : ℚ), 2], [1, 3]] 0 0 = 1 := by
  have h := claim_C4_corr_symmetric_unit_diagonal .pearson
    [[(0 : ℚ), 2], [1, 3]] 0 1 (by norm_num) (by norm_num)
  refine ⟨h.1, h.2 ?_⟩
  simp only [nondegenerate, List.getD]
  norm_num [cov_sum, mean]

/-- C8: the computation from the input table, correlation method and fetched
annotations to the cluster labels and the cluster-exclusive sets is
deterministic — equal inputs (and equal deterministic library subroutines)
give equal outputs. -/
theorem claim_C8_pipeline_deterministic (m1 m2 : CorrMethod)
    (cols1 cols2 : List (List ℚ)) (proteins1 proteins2 : List String)
    (records1 records2 : String → List Xref)
    (cluster_fn1 cluster_fn2 : ℤ → List (List ℝ) → List ℕ)
    (score_fn1 score_fn2 : List (List ℝ) → List ℕ → ℚ)
    (hm : m1 = m2) (hc : cols1 = cols2) (hp : proteins1 = proteins2)
    (hr : records1 = records2) (hcl : cluster_fn1 = cluster_fn2)
    (hs : score_fn1 = score_fn2) :
    pipeline m1 cols1 proteins1 records1 cluster_fn1 score_fn1 =
      pipeline m2 cols2 proteins2 records2 cluster_fn2 score_fn2 := by
  subst hm hc hp hr hcl hs
  rfl

theorem claim_C8_pipeline_deterministic_witness :
    pipeline .spearman [[0], [1]] ["P", "Q"] (fun _ => [])
        (fun _ _ => [0, 1]) (fun _ _ => 0) =
      pipeline .spearman [[0], [1]] ["P", "Q"] (fun _ => [])
        (fun _ _ => [0, 1]) (fun _ _ => 0) :=
  claim_C8_pipeline_deterministic .spearman .spearman [[0], [1]] [[0], [1]]
    ["P", "Q"] ["P", "Q"] (fun _ => []) (fun _ => []) (fun _ _ => [0, 1])
    (fun _ _ => [0, 1]) (fun _ _ => 0) (fun _ _ => 0) rfl rfl rfl rfl rfl rfl

/-- C1: the candidate cluster counts are exactly 2,3,4,5,6 in increasing
order; the selected count lies between 2 and 6, minimises the score among the
candidates, and ties resolve to the smallest such candidate (first minimum of
argmin). -/
theorem claim_C1_cluster_count_selection (score : ℤ → ℚ) :
    tentative_clusters = [2, 3, 4, 5, 6] ∧
      2 ≤ best_n_clusters score ∧ best_n_clusters score ≤ 6 ∧
      (∀ j ∈ tentative_clusters, score (best_n_clusters score) ≤ score j) ∧
      (∀ j ∈ tentative_clusters,
        score j = score (best_n_clusters score) → best_n_clusters score ≤ j) := by
  have ht := tentative_clusters_eq
  refine ⟨ht, ?_⟩
  have g0 : ([2, 3, 4, 5, 6] : List ℤ).getD 0 0 = 2 := rfl
  have g1 : ([2, 3, 4, 5, 6] : List ℤ).getD 1 0 = 3 := rfl
  have g2 : ([2, 3, 4, 5, 6] : List ℤ).getD 2 0 = 4 := rfl
  have g3 : ([2, 3, 4, 5, 6] : List ℤ).getD 3 0 = 5 := rfl
  have g4 : ([2, 3, 4, 5, 6] : List ℤ).getD 4 0 = 6 := rfl
  have hb : best_n_clusters score =
      ([2, 3, 4, 5, 6] : List ℤ).getD
        (argmin (([2, 3, 4, 5, 6] : List ℤ).map score)) 0 := by
    rw [best_n_clusters, ht]
  rw [hb, ht]
  simp only [List.map_cons, List.map_nil, argmin, argminAux]
  split_ifs <;>
    simp only [g0, g1, g2, g3, g4] <;>
    refine ⟨by decide, by decide, ?_, ?_⟩ <;>
    (intro j hj; fin_cases hj) <;>
    (try intro hEq) <;>
    first
      | decide
      | linarith

end ProteinAnalysis
